import Mathlib

/-!
Shallow embedding of the DynamoDB-backed event-sourcing storage adapter
(`storage/ddb.ts`): the event stream operations `commitEvent`,
`commitAnonymousEvent`, `getEvent`, `slice` produced by `createDDBStack`,
the stream registry `ddbStore` (its `name` / `createStack` / `getStack`),
and the view cache `ddbViewCache` (`getFromCache` / `updateCache`).

The DynamoDB events table (partition key `namespace`, sort key `id`) is
modelled as a list of records with at most one record per key; a
`transactWrite` is an atomic all-or-nothing application of a list of
transact items, failing with one cancellation reason per item when any
item's condition expression fails, exactly as the AWS API reports them.
-/

namespace DDB

/-- A stored event record of the events table: attribute `namespace`
(partition key, written `ns` here since `namespace` is a Lean keyword),
attribute `id` (sort key, a number), and the remaining payload attributes
abstracted as one string. -/
structure EvRecord where
  ns : String
  id : Int
  payload : String
deriving DecidableEq, Repr

/-- The events table: a list of records.  Key uniqueness (one record per
(`namespace`, `id`)) is stated separately as `WFStore`. -/
abbrev Store := List EvRecord

/-- `DDBStackOptions` of the source, minus the live client handle. -/
structure DDBStackOptions where
  tablename : String
  ns : String
deriving DecidableEq, Repr

/-- The `ESEvent` argument of `commitEvent`: its `id` plus the payload
attributes.  (`commitEvent` overwrites any `namespace` field of the event
with `options.namespace`, so none is modelled.) -/
structure ESEvent where
  id : Int
  payload : String
deriving DecidableEq, Repr

/-- Whether the table holds a record at key (`n`, `i`) — what DynamoDB's
`attribute_not_exists(namespace)` / `attribute_exists(namespace)` condition
expressions test at that key, since every stored item carries its
partition-key attribute. -/
def present (s : Store) (n : String) (i : Int) : Bool :=
  s.any (fun r => r.ns == n && r.id == i)

/-- Propositional form of `present`. -/
def presentP (s : Store) (n : String) (i : Int) : Prop :=
  present s n i = true

instance (s : Store) (n : String) (i : Int) : Decidable (presentP s n i) := by
  unfold presentP; infer_instance

/-- The two kinds of transact item `commitEvent` builds: the conditional
`Put` of the new event record (condition `attribute_not_exists(#ns)`), and
the `ConditionCheck` on the predecessor key (condition
`attribute_exists(#ns)`). -/
inductive TransactItem where
  | put (item : EvRecord)
  | conditionCheck (ns : String) (id : Int)
deriving DecidableEq, Repr

/-- Per-item cancellation reason, as DynamoDB reports them in a
`TransactionCanceledException` (`ConditionalCheckFailed` or `None`). -/
inductive CancelReason where
  | ccf
  | cnone
deriving DecidableEq, Repr

/-- Whether a transact item's condition expression fails against the
current table state. -/
def itemFails (s : Store) : TransactItem → Bool
  | .put item => present s item.ns item.id
  | .conditionCheck n i => !(present s n i)

/-- Effect of one transact item on the table (a `ConditionCheck` writes
nothing). -/
def applyItem (s : Store) : TransactItem → Store
  | .put item => item :: s
  | .conditionCheck _ _ => s

/-- `ddb.transactWrite`: atomic all-or-nothing.  If any item's condition
fails, nothing is written and the call throws carrying one cancellation
reason per item; otherwise all effects apply. -/
def transactWrite (s : Store) (items : List TransactItem) :
    Except (List CancelReason) Unit × Store :=
  if items.any (itemFails s) then
    (Except.error (items.map (fun it => if itemFails s it then CancelReason.ccf else CancelReason.cnone)), s)
  else
    (Except.ok (), items.foldl applyItem s)

/-- `commitEvent` of `createDDBStack`: returns immediately for a negative
id; otherwise builds the conditional `Put` of
`{...ev, namespace: options.namespace}` and, when `id !== 0`, the
predecessor `ConditionCheck`, and submits them as one `transactWrite`.
The thrown transaction error is surfaced unchanged to the caller. -/
def commitEvent (o : DDBStackOptions) (s : Store) (ev : ESEvent) :
    Except (List CancelReason) Unit × Store :=
  if ev.id < 0 then (Except.ok (), s)
  else
    let event : EvRecord := { ns := o.ns, id := ev.id, payload := ev.payload }
    let transactItems : List TransactItem :=
      if ev.id ≠ 0 then
        [TransactItem.put event, TransactItem.conditionCheck o.ns (ev.id - 1)]
      else
        [TransactItem.put event]
    transactWrite s transactItems

/-- The descending (`ScanIndexForward: false`), `Limit: 1` query of
`commitAnonymousEvent`: the id of the highest-id record of the namespace,
or `none` when the namespace has no events. -/
def nsMaxId (s : Store) (n : String) : Option Int :=
  match s with
  | [] => none
  | r :: rest =>
    if r.ns == n then
      match nsMaxId rest n with
      | none => some r.id
      | some v => some (max v r.id)
    else nsMaxId rest n

/-- `commitAnonymousEvent` of `createDDBStack`: reads the current tail via
the descending limit-1 query, computes `(lastEvent?.id ?? -1) + 1`, and
delegates to `commitEvent` with that id (one single attempt, its result
returned as is). -/
def commitAnonymousEvent (o : DDBStackOptions) (s : Store) (ev : ESEvent) :
    Except (List CancelReason) Unit × Store :=
  let lastEventId := nsMaxId s o.ns
  let nextEventId := lastEventId.getD (-1) + 1
  commitEvent o s { ev with id := nextEventId }

/-- `getEvent` of `createDDBStack`: point `get` at key
(`options.namespace`, `id`). -/
def getEvent (o : DDBStackOptions) (s : Store) (i : Int) : Option EvRecord :=
  s.find? (fun r => r.ns == o.ns && r.id == i)

/-- `slice` of `createDDBStack`: a query with key condition
`#ns=:ns and #id >= :start`; DynamoDB returns the matching items in
ascending sort-key order (`ScanIndexForward` defaults to true), modelled by
sorting the matching records by id.  NOTE: the source never references its
`end` parameter (`endId` here); it is accepted and ignored. -/
def slice (o : DDBStackOptions) (s : Store) (start : Int) (endId : Option Int) :
    List EvRecord :=
  List.insertionSort (fun a b => a.id ≤ b.id)
    (s.filter (fun r => r.ns == o.ns && decide (start ≤ r.id)))

/-- Key uniqueness of the table: DynamoDB holds at most one item per
(partition key, sort key). -/
def WFStore (s : Store) : Prop :=
  (s.map (fun r => (r.ns, r.id))).Nodup

/-- The ids of a namespace form the initial segment `{0, ..., k-1}`. -/
def NSInit (s : Store) (n : String) : Prop :=
  ∃ k : Nat, ∀ i : Int, presentP s n i ↔ 0 ≤ i ∧ i < (k : Int)

/-- The reachable-state invariant: unique keys, and every namespace's id
set is a gap-free initial segment. -/
def Inv (s : Store) : Prop :=
  WFStore s ∧ ∀ n, NSInit s n

/-- One append operation, as issued by some caller against some stack. -/
inductive StackOp where
  | commit (o : DDBStackOptions) (ev : ESEvent)
  | commitAnon (o : DDBStackOptions) (ev : ESEvent)

/-- The store state produced by one operation (the error, if any, is
surfaced to that caller; the table keeps the resulting state). -/
def applyOp (s : Store) : StackOp → Store
  | .commit o ev => (commitEvent o s ev).2
  | .commitAnon o ev => (commitAnonymousEvent o s ev).2

/-- Run a sequence of interleaved append operations. -/
def runOps (s : Store) (ops : List StackOp) : Store :=
  ops.foldl applyOp s

/-- How a caller classifies a surfaced transaction-cancellation error:
the first transact item is the `Put`, so its reason being
`ConditionalCheckFailed` means an event with this id already exists. -/
def conflictIsDuplicate (rs : List CancelReason) : Bool :=
  rs.head? == some CancelReason.ccf

/-- The second transact item (present only when `id ≠ 0`) is the
predecessor `ConditionCheck`; its reason being `ConditionalCheckFailed`
means the event at `id - 1` does not exist yet. -/
def conflictIsPredMissing (rs : List CancelReason) : Bool :=
  (rs.drop 1).head? == some CancelReason.ccf

/-! ### The stream registry (`ddbStore`) -/

/-- `name` of `ddbStore`: the delimited composite key
`` `${stackSet}|${stack}` ``. -/
def name (stackSet stack : String) : String :=
  stackSet ++ "|" ++ stack

/-- The module-level `stacks` map of `ddbStore`: registry key ↦ the
`namespace` of the `ESStack` handle stored there (the observable identity
of a handle, everything else being the shared client and table name). -/
structure StacksState where
  entries : List (String × String)

/-- `getStack` of `ddbStore`: `stacks.get(name(stackSet, stackName))`,
yielding the namespace of the cached handle if any. -/
def getStack (st : StacksState) (stackSet stackName : String) : Option String :=
  (st.entries.find? (fun p => p.1 == name stackSet stackName)).map (fun p => p.2)

/-- `createStack` of `ddbStore`: builds a stack whose namespace is
`name(stackSet, stackName)` and registers it under that same string key;
returns the new handle's namespace and the updated registry. -/
def createStack (st : StacksState) (stackSet stackName : String) :
    String × StacksState :=
  let n := name stackSet stackName
  (n, ⟨(n, n) :: st.entries⟩)

/-! ### The view cache (`ddbViewCache`) -/

/-- `DDBViewCacheOptions` of the source, minus the client handle. -/
structure DDBViewCacheOptions where
  tablename : String
  ns : String
deriving DecidableEq, Repr

/-- A `CompiledView` value passed to `updateCache`.  Besides `eventId` and
the payload attributes, the JS object may itself carry `namespace` /
`viewName` properties; because the source spreads `...compiledView` last,
such properties override the configured key fields, so they are modelled
explicitly as optional fields. -/
structure CompiledView where
  nsAttr : Option String
  viewNameAttr : Option String
  eventId : Int
  payload : String
deriving DecidableEq, Repr

/-- A stored item of the views table: partition key `namespace`, sort key
`viewName`, plus `eventId` and payload. -/
structure ViewRecord where
  ns : String
  viewName : String
  eventId : Int
  payload : String
deriving DecidableEq, Repr

/-- The views table. -/
abbrev ViewStore := List ViewRecord

/-- Point lookup in the views table at key (`n`, `vn`). -/
def vsGet (s : ViewStore) (n vn : String) : Option ViewRecord :=
  s.find? (fun r => r.ns == n && r.viewName == vn)

/-- A DynamoDB `put`: replaces whatever item sits at the new item's key. -/
def vsPut (s : ViewStore) (item : ViewRecord) : ViewStore :=
  item :: s.filter (fun r => !(r.ns == item.ns && r.viewName == item.viewName))

/-- The item `updateCache` submits:
`{ namespace: options.namespace, viewName: identifier, ...compiledView }` —
JS spread semantics make payload-supplied `namespace` / `viewName`
properties win over the two base fields. -/
def viewItem (o : DDBViewCacheOptions) (identifier : String) (cv : CompiledView) :
    ViewRecord :=
  { ns := cv.nsAttr.getD o.ns
    viewName := cv.viewNameAttr.getD identifier
    eventId := cv.eventId
    payload := cv.payload }

/-- `updateCache` of `ddbViewCache`: conditional put with condition
`attribute_not_exists(#ns) OR #evid < :evid`, evaluated by DynamoDB
against the current item at the submitted item's key; a
`ConditionalCheckFailed` error is caught and swallowed (`return`), so the
call surfaces success either way. -/
def updateCache (o : DDBViewCacheOptions) (s : ViewStore) (identifier : String)
    (cv : CompiledView) : Except String Unit × ViewStore :=
  let item := viewItem o identifier cv
  let conditionOk : Bool :=
    match vsGet s item.ns item.viewName with
    | none => true
    | some existing => decide (existing.eventId < cv.eventId)
  if conditionOk then (Except.ok (), vsPut s item)
  else (Except.ok (), s)

/-- `getFromCache` of `ddbViewCache`: point `get` at key
(`options.namespace`, `identifier`). -/
def getFromCache (o : DDBViewCacheOptions) (s : ViewStore) (identifier : String) :
    Option ViewRecord :=
  vsGet s o.ns identifier

/-- One `updateCache` call in a sequence of projector runs. -/
structure CachePut where
  o : DDBViewCacheOptions
  identifier : String
  cv : CompiledView

/-- Run a sequence of `updateCache` calls against the views table. -/
def runCachePuts (s : ViewStore) (ops : List CachePut) : ViewStore :=
  ops.foldl (fun s p => (updateCache p.o s p.identifier p.cv).2) s

instance : IsTotal EvRecord (fun a b => a.id ≤ b.id) :=
  ⟨fun a b => Int.le_total a.id b.id⟩

instance : IsTrans EvRecord (fun a b => a.id ≤ b.id) :=
  ⟨fun _ _ _ hab hbc => Int.le_trans hab hbc⟩

/-! ### Basic lemmas about the events table -/

theorem presentP_iff_exists (s : Store) (n : String) (i : Int) :
    presentP s n i ↔ ∃ r ∈ s, r.ns = n ∧ r.id = i := by
  simp [presentP, present, List.any_eq_true]

theorem presentP_cons (r : EvRecord) (s : Store) (n : String) (i : Int) :
    presentP (r :: s) n i ↔ (r.ns = n ∧ r.id = i) ∨ presentP s n i := by
  simp [presentP, present, List.any_cons]

theorem presentP_iff_key_mem (s : Store) (n : String) (i : Int) :
    presentP s n i ↔ (n, i) ∈ s.map (fun r => (r.ns, r.id)) := by
  rw [presentP_iff_exists]
  simp [List.mem_map, Prod.mk.injEq]

/-! ### Case analyses of `commitEvent` -/

theorem commitEvent_neg (o : DDBStackOptions) (s : Store) (ev : ESEvent)
    (h : ev.id < 0) : commitEvent o s ev = (Except.ok (), s) := by
  simp [commitEvent, h]

theorem commitEvent_zero (o : DDBStackOptions) (s : Store) (ev : ESEvent)
    (hz : ev.id = 0) :
    commitEvent o s ev =
      if present s o.ns 0 then (Except.error [CancelReason.ccf], s)
      else (Except.ok (), (⟨o.ns, 0, ev.payload⟩ : EvRecord) :: s) := by
  by_cases hp : present s o.ns 0 <;>
    simp [commitEvent, hz, transactWrite, itemFails, applyItem, hp]

theorem commitEvent_pos (o : DDBStackOptions) (s : Store) (ev : ESEvent)
    (hpos : 0 < ev.id) :
    commitEvent o s ev =
      if present s o.ns ev.id || !present s o.ns (ev.id - 1) then
        (Except.error
          [if present s o.ns ev.id then CancelReason.ccf else CancelReason.cnone,
           if present s o.ns (ev.id - 1) then CancelReason.cnone else CancelReason.ccf], s)
      else (Except.ok (), (⟨o.ns, ev.id, ev.payload⟩ : EvRecord) :: s) := by
  have h0 : ¬ ev.id < 0 := by omega
  have hz : ev.id ≠ 0 := by omega
  by_cases h1 : present s o.ns ev.id <;> by_cases h2 : present s o.ns (ev.id - 1) <;>
    simp [commitEvent, h0, hz, transactWrite, itemFails, applyItem, h1, h2]

/-! ### Claim theorems: commitEvent behaviour -/

/-- C9: for every event whose id is negative, `commitEvent` returns
successfully without performing any store operation — the store is
unchanged and no error is surfaced. -/
theorem C9_negative_id_noop (o : DDBStackOptions) (s : Store) (ev : ESEvent)
    (h : ev.id < 0) : commitEvent o s ev = (Except.ok (), s) :=
  commitEvent_neg o s ev h

theorem C9_negative_id_noop_witness :
    commitEvent ⟨"events", "n"⟩ [] ⟨-1, "p"⟩ = (Except.ok (), []) :=
  C9_negative_id_noop ⟨"events", "n"⟩ [] ⟨-1, "p"⟩ (by decide)

/-- C2: for every event with id ≥ 0, `commitEvent` atomically checks that
no record exists at (namespace, id) and — when id > 0 — that a record
exists at (namespace, id−1); either both conditions hold and the event is
durably stored, or the operation fails with no partial write and the store
is unchanged.  For id = 0 no predecessor check is made. -/
theorem C2_commitEvent_atomic (o : DDBStackOptions) (s : Store) (ev : ESEvent)
    (h : 0 ≤ ev.id) :
    (¬ presentP s o.ns ev.id ∧ (ev.id = 0 ∨ presentP s o.ns (ev.id - 1)) ∧
        commitEvent o s ev = (Except.ok (), (⟨o.ns, ev.id, ev.payload⟩ : EvRecord) :: s))
    ∨ ((presentP s o.ns ev.id ∨ (ev.id ≠ 0 ∧ ¬ presentP s o.ns (ev.id - 1))) ∧
        (∃ rs, (commitEvent o s ev).1 = Except.error rs) ∧
        (commitEvent o s ev).2 = s) := by
  by_cases hz : ev.id = 0
  · rw [commitEvent_zero o s ev hz]
    by_cases hp : present s o.ns 0
    · exact Or.inr ⟨Or.inl (hz ▸ hp), by simp [hp], by simp [hp]⟩
    · exact Or.inl ⟨by simp [presentP, hz, hp], Or.inl hz, by simp [hp, hz]⟩
  · have hpos : 0 < ev.id := by omega
    rw [commitEvent_pos o s ev hpos]
    by_cases h1 : present s o.ns ev.id <;> by_cases h2 : present s o.ns (ev.id - 1)
    · exact Or.inr ⟨Or.inl h1, by simp [h1, h2], by simp [h1, h2]⟩
    · exact Or.inr ⟨Or.inl h1, by simp [h1, h2], by simp [h1, h2]⟩
    · exact Or.inl ⟨by simp [presentP, h1], Or.inr h2, by simp [h1, h2]⟩
    · refine Or.inr ⟨Or.inr ⟨hz, by simp [presentP, h2]⟩, by simp [h1, h2], by simp [h1, h2]⟩

theorem C2_commitEvent_atomic_witness :
    (¬ presentP [] "n" 0 ∧ ((0 : Int) = 0 ∨ presentP [] "n" (0 - 1)) ∧
        commitEvent ⟨"events", "n"⟩ [] ⟨0, "p"⟩ =
          (Except.ok (), (⟨"n", 0, "p"⟩ : EvRecord) :: []))
    ∨ ((presentP [] "n" 0 ∨ ((0 : Int) ≠ 0 ∧ ¬ presentP [] "n" (0 - 1))) ∧
        (∃ rs, (commitEvent ⟨"events", "n"⟩ [] ⟨0, "p"⟩).1 = Except.error rs) ∧
        (commitEvent ⟨"events", "n"⟩ [] ⟨0, "p"⟩).2 = []) :=
  C2_commitEvent_atomic ⟨"events", "n"⟩ [] ⟨0, "p"⟩ (by decide)

/-- C3: every conflict failure of `commitEvent` (in a reachable table
state, i.e. one whose namespaces are gap-free initial segments) leaves the
store unchanged and is surfaced as exactly one of the two disjoint,
distinguishable kinds: duplicate event (the Put's reason is
`ConditionalCheckFailed`) or predecessor missing (the ConditionCheck's
reason is `ConditionalCheckFailed`), matching which store sub-condition
failed. -/
theorem C3_conflict_kinds (o : DDBStackOptions) (s : Store) (ev : ESEvent)
    (rs : List CancelReason) (s2 : Store) (hinv : NSInit s o.ns)
    (h : commitEvent o s ev = (Except.error rs, s2)) :
    s2 = s ∧
    (conflictIsDuplicate rs = true ∨ conflictIsPredMissing rs = true) ∧
    ¬ (conflictIsDuplicate rs = true ∧ conflictIsPredMissing rs = true) ∧
    (conflictIsDuplicate rs = true ↔ presentP s o.ns ev.id) ∧
    (conflictIsPredMissing rs = true ↔ (ev.id ≠ 0 ∧ ¬ presentP s o.ns (ev.id - 1))) := by
  by_cases hneg : ev.id < 0
  · rw [commitEvent_neg o s ev hneg] at h
    simp at h
  · by_cases hz : ev.id = 0
    · rw [commitEvent_zero o s ev hz] at h
      by_cases hp : present s o.ns 0
      · rw [if_pos hp] at h
        injection h with ha hb
        injection ha with ha
        subst ha hb
        refine ⟨rfl, Or.inl (by decide), by decide, ?_, ?_⟩
        · simp [conflictIsDuplicate, presentP, hz, hp]
        · simp [conflictIsPredMissing, hz]
      · rw [if_neg hp] at h
        simp at h
    · have hpos : 0 < ev.id := by omega
      rw [commitEvent_pos o s ev hpos] at h
      by_cases h1 : present s o.ns ev.id
      · by_cases h2 : present s o.ns (ev.id - 1)
        · -- only the Put's condition failed: duplicate
          simp only [h1, h2, Bool.not_true, Bool.or_false, if_true, if_pos] at h
          injection h with ha hb
          injection ha with ha
          subst ha hb
          refine ⟨rfl, Or.inl (by decide), by decide, ?_, ?_⟩
          · simp [conflictIsDuplicate, presentP, h1]
          · simp [conflictIsPredMissing, presentP, h2]
        · -- both sub-conditions failed at once: impossible in a reachable state
          exfalso
          obtain ⟨k, hk⟩ := hinv
          have ha : presentP s o.ns ev.id := h1
          have hb : ¬ presentP s o.ns (ev.id - 1) := by simp [presentP, h2]
          rw [hk] at ha
          rw [hk] at hb
          omega
      · by_cases h2 : present s o.ns (ev.id - 1)
        · -- neither condition failed: the transaction succeeded, no error
          simp [h1, h2] at h
        · -- only the predecessor check failed
          simp only [h1, h2, Bool.not_false, Bool.or_true, if_true, if_neg] at h
          injection h with ha hb
          injection ha with ha
          subst ha hb
          refine ⟨rfl, Or.inr (by decide), by decide, ?_, ?_⟩
          · simp [conflictIsDuplicate, presentP, h1]
          · simp [conflictIsPredMissing, presentP, hz, h2]

theorem C3_conflict_kinds_witness :
    ([] : Store) = [] ∧
    (conflictIsDuplicate [CancelReason.cnone, CancelReason.ccf] = true ∨
      conflictIsPredMissing [CancelReason.cnone, CancelReason.ccf] = true) ∧
    ¬ (conflictIsDuplicate [CancelReason.cnone, CancelReason.ccf] = true ∧
       conflictIsPredMissing [CancelReason.cnone, CancelReason.ccf] = true) ∧
    (conflictIsDuplicate [CancelReason.cnone, CancelReason.ccf] = true ↔
      presentP [] "n" (5 : Int)) ∧
    (conflictIsPredMissing [CancelReason.cnone, CancelReason.ccf] = true ↔
      ((5 : Int) ≠ 0 ∧ ¬ presentP [] "n" ((5 : Int) - 1))) :=
  C3_conflict_kinds ⟨"events", "n"⟩ [] ⟨5, "p"⟩
    [CancelReason.cnone, CancelReason.ccf] []
    ⟨0, fun i => ⟨fun hx => by simp [presentP, present] at hx,
      fun hx => absurd hx (by omega)⟩⟩
    (by rfl)

/-! ### The reachable-state invariant is preserved by every append -/

theorem inv_nil : Inv ([] : Store) :=
  ⟨by simp [WFStore], fun _ =>
    ⟨0, fun i => ⟨fun hx => by simp [presentP, present] at hx,
      fun hx => absurd hx (by omega)⟩⟩⟩

theorem WFStore_cons (r : EvRecord) (s : Store) (h : WFStore s)
    (hnp : ¬ presentP s r.ns r.id) : WFStore (r :: s) := by
  rw [WFStore, List.map_cons, List.nodup_cons]
  exact ⟨fun hmem => hnp ((presentP_iff_key_mem s r.ns r.id).mpr hmem), h⟩

theorem inv_insert (s : Store) (n : String) (j : Int) (p : String) (h : Inv s)
    (hnp : ¬ presentP s n j) (hpred : j = 0 ∨ presentP s n (j - 1)) (hj : 0 ≤ j) :
    Inv ((⟨n, j, p⟩ : EvRecord) :: s) := by
  obtain ⟨hwf, hns⟩ := h
  refine ⟨WFStore_cons _ _ hwf hnp, fun m => ?_⟩
  obtain ⟨k, hk⟩ := hns m
  by_cases hm : n = m
  · subst hm
    have hjk : j = (k : Int) := by
      have h1 : ¬ (0 ≤ j ∧ j < (k : Int)) := fun hc => hnp ((hk j).mpr hc)
      rcases hpred with h0 | hp
      · omega
      · have h2 := (hk (j - 1)).mp hp
        omega
    refine ⟨k + 1, fun i => ?_⟩
    rw [presentP_cons, hk i]
    constructor
    · rintro (⟨-, hji⟩ | hi)
      · have hji2 : j = i := hji
        omega
      · omega
    · intro hi
      by_cases hij : i = j
      · exact Or.inl ⟨rfl, hij.symm⟩
      · exact Or.inr (by omega)
  · refine ⟨k, fun i => ?_⟩
    rw [presentP_cons, hk i]
    constructor
    · rintro (⟨hnm, -⟩ | hi)
      · exact absurd hnm hm
      · exact hi
    · exact fun hi => Or.inr hi

theorem inv_commitEvent (o : DDBStackOptions) (s : Store) (ev : ESEvent)
    (h : Inv s) : Inv (commitEvent o s ev).2 := by
  by_cases hneg : ev.id < 0
  · rw [commitEvent_neg o s ev hneg]; exact h
  · by_cases hz : ev.id = 0
    · rw [commitEvent_zero o s ev hz]
      by_cases hp : present s o.ns 0
      · rw [if_pos hp]; exact h
      · rw [if_neg hp]
        exact inv_insert s o.ns 0 ev.payload h (by simp [presentP, hp])
          (Or.inl rfl) le_rfl
    · have hpos : 0 < ev.id := by omega
      rw [commitEvent_pos o s ev hpos]
      by_cases h1 : present s o.ns ev.id
      · rw [if_pos (by simp [h1])]; exact h
      · by_cases h2 : present s o.ns (ev.id - 1)
        · rw [if_neg (by simp [h1, h2])]
          exact inv_insert s o.ns ev.id ev.payload h (by simp [presentP, h1])
            (Or.inr h2) (by omega)
        · rw [if_pos (by simp [h1, h2])]; exact h

theorem inv_applyOp (s : Store) (op : StackOp) (h : Inv s) : Inv (applyOp s op) := by
  cases op with
  | commit o ev => exact inv_commitEvent o s ev h
  | commitAnon o ev =>
    show Inv (commitAnonymousEvent o s ev).2
    unfold commitAnonymousEvent
    exact inv_commitEvent o s _ h

theorem inv_runOps (ops : List StackOp) (s : Store) (h : Inv s) :
    Inv (runOps s ops) := by
  induction ops generalizing s with
  | nil => exact h
  | cons op ops ih => exact ih _ (inv_applyOp s op h)

/-! ### Slice of a gap-free namespace is the canonical ascending sequence -/

theorem ids_nodup (s : Store) (n : String) (start : Int) (hwf : WFStore s) :
    ((s.filter (fun r => r.ns == n && decide (start ≤ r.id))).map
      (fun r => r.id)).Nodup := by
  have h1 : s.Pairwise (fun a b => (a.ns, a.id) ≠ (b.ns, b.id)) := by
    rw [WFStore] at hwf
    exact List.pairwise_map.mp hwf
  have h2 := h1.filter (fun r => r.ns == n && decide (start ≤ r.id))
  rw [List.Nodup, List.pairwise_map]
  refine List.Pairwise.imp_of_mem ?_ h2
  intro a b ha hb hne hid
  rw [List.mem_filter] at ha hb
  have han : a.ns = n := by
    have h3 := ha.2
    simp only [Bool.and_eq_true, beq_iff_eq] at h3
    exact h3.1
  have hbn : b.ns = n := by
    have h3 := hb.2
    simp only [Bool.and_eq_true, beq_iff_eq] at h3
    exact h3.1
  exact hne (by rw [han, hbn, hid])

theorem slice_ids_eq (o : DDBStackOptions) (s : Store) (k : Nat) (endId : Option Int)
    (hwf : WFStore s)
    (hk : ∀ i : Int, presentP s o.ns i ↔ 0 ≤ i ∧ i < (k : Int)) :
    (slice o s 0 endId).map (fun r => r.id) =
      (List.range k).map (fun m : Nat => (m : Int)) := by
  unfold slice
  have hnd1 := ids_nodup s o.ns 0 hwf
  have hnd2 : ((List.range k).map (fun m : Nat => (m : Int))).Nodup := by
    refine List.Nodup.map ?_ (List.nodup_range k)
    intro a b hab
    simp only at hab
    exact_mod_cast hab
  have hmem : ∀ a : Int,
      (a ∈ (s.filter (fun r => r.ns == o.ns && decide ((0 : Int) ≤ r.id))).map
        (fun r => r.id)) ↔ a ∈ (List.range k).map (fun m : Nat => (m : Int)) := by
    intro a
    simp only [List.mem_map, List.mem_filter, List.mem_range]
    constructor
    · rintro ⟨r, ⟨hrs, hcond⟩, rfl⟩
      simp only [Bool.and_eq_true, beq_iff_eq, decide_eq_true_eq] at hcond
      have hp : presentP s o.ns r.id :=
        (presentP_iff_exists s o.ns r.id).mpr ⟨r, hrs, hcond.1, rfl⟩
      rw [hk] at hp
      refine ⟨r.id.toNat, ?_, ?_⟩ <;> omega
    · rintro ⟨m, hm, rfl⟩
      have hp : presentP s o.ns (m : Int) := by
        rw [hk]
        refine ⟨?_, ?_⟩ <;> omega
      rw [presentP_iff_exists] at hp
      obtain ⟨r, hrs, hrn, hri⟩ := hp
      refine ⟨r, ⟨hrs, ?_⟩, hri⟩
      simp only [Bool.and_eq_true, beq_iff_eq, decide_eq_true_eq]
      exact ⟨hrn, by omega⟩
  have hperm : List.Perm
      ((List.insertionSort (fun a b => a.id ≤ b.id)
        (s.filter (fun r => r.ns == o.ns && decide ((0 : Int) ≤ r.id)))).map
          (fun r => r.id)) ((List.range k).map (fun m : Nat => (m : Int))) :=
    ((List.perm_insertionSort _ _).map _).trans
      ((List.perm_ext_iff_of_nodup hnd1 hnd2).mpr hmem)
  refine List.eq_of_perm_of_sorted (r := fun a b : Int => a ≤ b) hperm ?_ ?_
  · exact List.pairwise_map.mpr (List.sorted_insertionSort _ _)
  · refine List.pairwise_map.mpr ?_
    exact (List.pairwise_lt_range k).imp (fun hab => by exact_mod_cast Nat.le_of_lt hab)

/-- C1: for every fixed namespace and every sequence of appends through
`commitEvent` and `commitAnonymousEvent` interleaved in any order, the set
of event ids stored for that namespace is `{0, ..., k-1}` with no gaps and
no duplicate keys, and `slice` / `getEvent` readers observe exactly that
strictly increasing id sequence. -/
theorem C1_ids_gapfree (ops : List StackOp) (o : DDBStackOptions) :
    ∃ k : Nat,
      (∀ i : Int, presentP (runOps [] ops) o.ns i ↔ 0 ≤ i ∧ i < (k : Int)) ∧
      WFStore (runOps [] ops) ∧
      (slice o (runOps [] ops) 0 none).map (fun r => r.id) =
        (List.range k).map (fun m : Nat => (m : Int)) ∧
      (∀ i : Int, (getEvent o (runOps [] ops) i).isSome = true ↔
        (0 ≤ i ∧ i < (k : Int))) := by
  have hinv := inv_runOps ops [] inv_nil
  obtain ⟨k, hk⟩ := hinv.2 o.ns
  refine ⟨k, hk, hinv.1, slice_ids_eq o _ k none hinv.1 hk, fun i => ?_⟩
  rw [← hk i]
  simp [getEvent, List.find?_isSome, presentP, present, List.any_eq_true]

/-! ### The descending limit-1 tail read of `commitAnonymousEvent` -/

theorem nsMaxId_spec (s : Store) (n : String) :
    (nsMaxId s n = none → ∀ i, ¬ presentP s n i) ∧
    (∀ m, nsMaxId s n = some m →
      presentP s n m ∧ ∀ i, presentP s n i → i ≤ m) := by
  induction s with
  | nil =>
    refine ⟨fun _ i hx => ?_, fun m hm => ?_⟩
    · simp [presentP, present] at hx
    · simp [nsMaxId] at hm
  | cons r rest ih =>
    obtain ⟨ihn, ihs⟩ := ih
    by_cases hr : (r.ns == n) = true
    · have hrn : r.ns = n := by simpa using hr
      cases hmr : nsMaxId rest n with
      | none =>
        refine ⟨fun hc => ?_, fun m hm => ?_⟩
        · simp [nsMaxId, hr, hmr] at hc
        · have hm2 : r.id = m := by
            simp only [nsMaxId, hr, if_true, hmr, Option.some.injEq] at hm
            exact hm
          subst hm2
          refine ⟨(presentP_cons r rest n r.id).mpr (Or.inl ⟨hrn, rfl⟩), fun i hi => ?_⟩
          rcases (presentP_cons r rest n i).mp hi with ⟨-, hid⟩ | hrest
          · omega
          · exact absurd hrest (ihn hmr i)
      | some v =>
        obtain ⟨hvp, hvb⟩ := ihs v hmr
        refine ⟨fun hc => ?_, fun m hm => ?_⟩
        · simp [nsMaxId, hr, hmr] at hc
        · have hm2 : max v r.id = m := by
            simp only [nsMaxId, hr, if_true, hmr, Option.some.injEq] at hm
            exact hm
          subst hm2
          constructor
          · rcases le_total v r.id with hvr | hvr
            · rw [max_eq_right hvr]
              exact (presentP_cons r rest n r.id).mpr (Or.inl ⟨hrn, rfl⟩)
            · rw [max_eq_left hvr]
              exact (presentP_cons r rest n v).mpr (Or.inr hvp)
          · intro i hi
            rcases (presentP_cons r rest n i).mp hi with ⟨-, hid⟩ | hrest
            · exact hid ▸ le_max_right v r.id
            · exact le_trans (hvb i hrest) (le_max_left v r.id)
    · have heq : nsMaxId (r :: rest) n = nsMaxId rest n := by
        simp [nsMaxId, hr]
      refine ⟨fun hc i hi => ?_, fun m hm => ?_⟩
      · rw [heq] at hc
        rcases (presentP_cons r rest n i).mp hi with ⟨hnm, -⟩ | hrest
        · exact hr (by simp [hnm])
        · exact ihn hc i hrest
      · rw [heq] at hm
        obtain ⟨hvp, hvb⟩ := ihs m hm
        refine ⟨(presentP_cons r rest n m).mpr (Or.inr hvp), fun i hi => ?_⟩
        rcases (presentP_cons r rest n i).mp hi with ⟨hnm, -⟩ | hrest
        · exact absurd (by simp [hnm] : (r.ns == n) = true) hr
        · exact hvb i hrest

/-- C7: `commitAnonymousEvent` reads the highest-id record of the
namespace (the descending lookup bounded to one result), computes
`candidateId = tail.id + 1` (or `0` on an empty stream), and performs
exactly one `commitEvent` with that id — no internal retry on conflict:
its whole result (including any surfaced conflict) is that single call's
result. -/
theorem C7_commitAnonymous_delegates (o : DDBStackOptions) (s : Store) (ev : ESEvent) :
    (commitAnonymousEvent o s ev =
      commitEvent o s { ev with id :=
        (match nsMaxId s o.ns with
         | none => 0
         | some t => t + 1) }) ∧
    (nsMaxId s o.ns = none → ∀ i, ¬ presentP s o.ns i) ∧
    (∀ m, nsMaxId s o.ns = some m →
      presentP s o.ns m ∧ ∀ i, presentP s o.ns i → i ≤ m) := by
  refine ⟨?_, (nsMaxId_spec s o.ns).1, (nsMaxId_spec s o.ns).2⟩
  cases hm : nsMaxId s o.ns with
  | none => simp [commitAnonymousEvent, hm]
  | some t => simp [commitAnonymousEvent, hm]

theorem C7_commitAnonymous_delegates_witness :
    (commitAnonymousEvent ⟨"events", "n"⟩ [⟨"n", 0, "a"⟩] ⟨-7, "b"⟩ =
      commitEvent ⟨"events", "n"⟩ [⟨"n", 0, "a"⟩] ⟨1, "b"⟩) ∧
    presentP [⟨"n", 0, "a"⟩] "n" 0 :=
  ⟨(C7_commitAnonymous_delegates ⟨"events", "n"⟩ [⟨"n", 0, "a"⟩] ⟨-7, "b"⟩).1,
   ((C7_commitAnonymous_delegates ⟨"events", "n"⟩ [⟨"n", 0, "a"⟩] ⟨-7, "b"⟩).2.2
      0 rfl).1⟩

/-! ### View cache lemmas -/

theorem find_filter_of_imp {α : Type} (p q : α → Bool) (s : List α)
    (h : ∀ r, p r = true → q r = true) : (s.filter q).find? p = s.find? p := by
  induction s with
  | nil => rfl
  | cons r rest ih =>
    by_cases hp : p r = true
    · rw [List.filter_cons, if_pos (h r hp), List.find?_cons_of_pos _ hp,
        List.find?_cons_of_pos _ hp]
    · by_cases hq : q r = true
      · rw [List.filter_cons, if_pos hq, List.find?_cons_of_neg _ hp,
          List.find?_cons_of_neg _ hp, ih]
      · rw [List.filter_cons, if_neg hq, List.find?_cons_of_neg _ hp, ih]

theorem vsGet_vsPut (s : ViewStore) (item : ViewRecord) (n vn : String) :
    vsGet (vsPut s item) n vn =
      if item.ns = n ∧ item.viewName = vn then some item else vsGet s n vn := by
  by_cases hk : item.ns = n ∧ item.viewName = vn
  · rw [if_pos hk]
    unfold vsGet vsPut
    rw [List.find?_cons_of_pos]
    simp [hk.1, hk.2]
  · rw [if_neg hk]
    unfold vsGet vsPut
    rw [List.find?_cons_of_neg]
    · apply find_filter_of_imp
      intro r hr
      simp only [Bool.and_eq_true, beq_iff_eq] at hr
      have hne : ¬ (r.ns = item.ns ∧ r.viewName = item.viewName) := by
        rintro ⟨ha, hb⟩
        exact hk ⟨by rw [← ha, hr.1], by rw [← hb, hr.2]⟩
      by_cases ha : r.ns = item.ns
      · by_cases hb : r.viewName = item.viewName
        · exact absurd ⟨ha, hb⟩ hne
        · simp [ha, hb]
      · simp [ha]
    · simpa using hk

theorem updateCache_cases (o : DDBViewCacheOptions) (s : ViewStore)
    (identifier : String) (cv : CompiledView) :
    (vsGet s (viewItem o identifier cv).ns (viewItem o identifier cv).viewName = none →
      updateCache o s identifier cv =
        (Except.ok (), vsPut s (viewItem o identifier cv))) ∧
    (∀ r, vsGet s (viewItem o identifier cv).ns (viewItem o identifier cv).viewName
        = some r →
      (r.eventId < cv.eventId →
        updateCache o s identifier cv =
          (Except.ok (), vsPut s (viewItem o identifier cv))) ∧
      (¬ r.eventId < cv.eventId →
        updateCache o s identifier cv = (Except.ok (), s))) := by
  refine ⟨fun hnone => ?_, fun r hsome => ⟨fun hlt => ?_, fun hge => ?_⟩⟩
  · simp [updateCache, hnone]
  · simp [updateCache, hsome, hlt]
  · simp [updateCache, hsome, hge]

theorem updateCache_mono (o : DDBViewCacheOptions) (s : ViewStore)
    (identifier : String) (cv : CompiledView) (n vn : String) (r : ViewRecord)
    (h : vsGet s n vn = some r) :
    ∃ r2, vsGet ((updateCache o s identifier cv).2) n vn = some r2 ∧
      r.eventId ≤ r2.eventId := by
  have hspec := updateCache_cases o s identifier cv
  cases hg : vsGet s (viewItem o identifier cv).ns (viewItem o identifier cv).viewName with
  | none =>
    rw [hspec.1 hg]
    rw [show (Except.ok (), vsPut s (viewItem o identifier cv)).2
        = vsPut s (viewItem o identifier cv) from rfl]
    rw [vsGet_vsPut]
    by_cases hk : (viewItem o identifier cv).ns = n ∧ (viewItem o identifier cv).viewName = vn
    · rw [hk.1, hk.2] at hg
      rw [h] at hg
      cases hg
    · rw [if_neg hk]
      exact ⟨r, h, le_refl _⟩
  | some existing =>
    by_cases hlt : existing.eventId < cv.eventId
    · rw [((hspec.2 existing hg).1 hlt)]
      rw [show (Except.ok (), vsPut s (viewItem o identifier cv)).2
          = vsPut s (viewItem o identifier cv) from rfl]
      rw [vsGet_vsPut]
      by_cases hk : (viewItem o identifier cv).ns = n ∧ (viewItem o identifier cv).viewName = vn
      · rw [if_pos hk]
        refine ⟨viewItem o identifier cv, rfl, ?_⟩
        rw [hk.1, hk.2] at hg
        rw [h] at hg
        injection hg with hg
        have heid : (viewItem o identifier cv).eventId = cv.eventId := rfl
        rw [heid, hg]
        exact le_of_lt hlt
      · rw [if_neg hk]
        exact ⟨r, h, le_refl _⟩
    · rw [((hspec.2 existing hg).2 hlt)]
      exact ⟨r, h, le_refl _⟩

theorem runCachePuts_mono (ops : List CachePut) (s : ViewStore) (n vn : String)
    (r : ViewRecord) (h : vsGet s n vn = some r) :
    ∃ r2, vsGet (runCachePuts s ops) n vn = some r2 ∧ r.eventId ≤ r2.eventId := by
  induction ops generalizing s r with
  | nil => exact ⟨r, h, le_refl _⟩
  | cons p ops ih =>
    obtain ⟨r2, h2, hle⟩ := updateCache_mono p.o s p.identifier p.cv n vn r h
    obtain ⟨r3, h3, hle2⟩ := ih _ _ h2
    exact ⟨r3, h3, le_trans hle hle2⟩

/-- C6: for every fixed (namespace, viewName) key, the `eventId` stored in
the view cache never decreases across any sequence of `updateCache` calls;
concretely, `put(id1, eventId 10)` then `put(id1, eventId 5)` leaves the
eventId-10 view readable via `getFromCache`, and a later
`put(id1, eventId 11)` makes `getFromCache` return the eventId-11 view. -/
theorem C6_cache_eventId_monotone :
    (∀ (s : ViewStore) (ops : List CachePut) (n vn : String) (r : ViewRecord),
      vsGet s n vn = some r →
      ∃ r2, vsGet (runCachePuts s ops) n vn = some r2 ∧
        r.eventId ≤ r2.eventId) ∧
    (getFromCache ⟨"views", "ns"⟩
        ((updateCache ⟨"views", "ns"⟩
          ((updateCache ⟨"views", "ns"⟩ [] "id1" ⟨none, none, 10, "p10"⟩).2)
          "id1" ⟨none, none, 5, "p5"⟩).2) "id1" =
      some ⟨"ns", "id1", 10, "p10"⟩) ∧
    (getFromCache ⟨"views", "ns"⟩
        ((updateCache ⟨"views", "ns"⟩
          ((updateCache ⟨"views", "ns"⟩
            ((updateCache ⟨"views", "ns"⟩ [] "id1" ⟨none, none, 10, "p10"⟩).2)
            "id1" ⟨none, none, 5, "p5"⟩).2)
          "id1" ⟨none, none, 11, "p11"⟩).2) "id1" =
      some ⟨"ns", "id1", 11, "p11"⟩) :=
  ⟨fun s ops n vn r h => runCachePuts_mono ops s n vn r h, by decide, by decide⟩

theorem C6_cache_eventId_monotone_witness :
    ∃ r2, vsGet (runCachePuts [⟨"ns", "id1", 10, "p"⟩]
        [⟨⟨"views", "ns"⟩, "id1", ⟨none, none, 5, "q"⟩⟩]) "ns" "id1" = some r2 ∧
      (10 : Int) ≤ r2.eventId :=
  C6_cache_eventId_monotone.1 [⟨"ns", "id1", 10, "p"⟩]
    [⟨⟨"views", "ns"⟩, "id1", ⟨none, none, 5, "q"⟩⟩] "ns" "id1"
    ⟨"ns", "id1", 10, "p"⟩ rfl

/-! ### C5 and C10: the conditional view write -/

/-- C5 (amended): for every view that does not itself carry a `namespace`
or `viewName` field, `updateCache` stores the view at
(`options.namespace`, `identifier`) when no entry exists there or the
existing entry's `eventId` is strictly less than the view's; when the
existing `eventId` is greater than or equal, it leaves the stored state
unchanged and returns success without raising any error.  (When the view
payload carries its own key fields, the condition and the write are keyed
by those instead — see the C10 theorem.) -/
theorem C5_updateCache_conditional (o : DDBViewCacheOptions) (s : ViewStore)
    (identifier : String) (cv : CompiledView)
    (hns : cv.nsAttr = none) (hvn : cv.viewNameAttr = none) :
    (vsGet s o.ns identifier = none →
      updateCache o s identifier cv =
        (Except.ok (), vsPut s ⟨o.ns, identifier, cv.eventId, cv.payload⟩) ∧
      vsGet (vsPut s ⟨o.ns, identifier, cv.eventId, cv.payload⟩) o.ns identifier =
        some ⟨o.ns, identifier, cv.eventId, cv.payload⟩) ∧
    (∀ r, vsGet s o.ns identifier = some r → r.eventId < cv.eventId →
      updateCache o s identifier cv =
        (Except.ok (), vsPut s ⟨o.ns, identifier, cv.eventId, cv.payload⟩) ∧
      vsGet (vsPut s ⟨o.ns, identifier, cv.eventId, cv.payload⟩) o.ns identifier =
        some ⟨o.ns, identifier, cv.eventId, cv.payload⟩) ∧
    (∀ r, vsGet s o.ns identifier = some r → cv.eventId ≤ r.eventId →
      updateCache o s identifier cv = (Except.ok (), s)) := by
  have hitem : viewItem o identifier cv =
      (⟨o.ns, identifier, cv.eventId, cv.payload⟩ : ViewRecord) := by
    simp [viewItem, hns, hvn]
  have hspec := updateCache_cases o s identifier cv
  rw [hitem] at hspec
  have hget : vsGet (vsPut s ⟨o.ns, identifier, cv.eventId, cv.payload⟩)
      o.ns identifier = some ⟨o.ns, identifier, cv.eventId, cv.payload⟩ := by
    rw [vsGet_vsPut]
    simp
  refine ⟨fun hnone => ⟨?_, hget⟩, fun r hsome hlt => ⟨?_, hget⟩,
    fun r hsome hge => ?_⟩
  · exact hspec.1 hnone
  · exact (hspec.2 r hsome).1 hlt
  · exact (hspec.2 r hsome).2 (not_lt.mpr hge)

theorem C5_updateCache_conditional_witness :
    updateCache ⟨"views", "cfg"⟩ [] "v" ⟨none, none, 7, "x"⟩ =
      (Except.ok (), vsPut [] ⟨"cfg", "v", 7, "x"⟩) :=
  ((C5_updateCache_conditional ⟨"views", "cfg"⟩ [] "v" ⟨none, none, 7, "x"⟩
    rfl rfl).1 rfl).1

/-- C5 counterexample: the claim as stated fails when the view payload
itself carries `namespace` / `viewName` fields.  Here the entry at the
configured key ("cfg", "v") holds `eventId = 10 ≥ 5`, so the claim demands
a no-op, yet the call writes a record (under the payload-supplied key) and
the stored state changes. -/
theorem C5_updateCache_counterexample :
    vsGet [⟨"cfg", "v", 10, "old"⟩] "cfg" "v" = some ⟨"cfg", "v", 10, "old"⟩ ∧
    (⟨some "other", some "w", 5, "x"⟩ : CompiledView).eventId ≤ (10 : Int) ∧
    (updateCache ⟨"views", "cfg"⟩ [⟨"cfg", "v", 10, "old"⟩] "v"
        ⟨some "other", some "w", 5, "x"⟩).2 ≠ [⟨"cfg", "v", 10, "old"⟩] := by
  refine ⟨rfl, by norm_num, by decide⟩

/-- C10: when the `compiledView` payload carries its own `namespace` /
`viewName` fields, the JS spread (payload last) makes them the stored
item's key fields, so the record is written under a key that can differ
from (`options.namespace`, `identifier`). -/
theorem C10_payload_overrides_key (o : DDBViewCacheOptions) (identifier : String)
    (cv : CompiledView) (n2 v2 : String)
    (h1 : cv.nsAttr = some n2) (h2 : cv.viewNameAttr = some v2) :
    (viewItem o identifier cv).ns = n2 ∧
    (viewItem o identifier cv).viewName = v2 ∧
    (∀ s : ViewStore, vsGet s n2 v2 = none →
      (updateCache o s identifier cv).2 = vsPut s (viewItem o identifier cv) ∧
      vsGet ((updateCache o s identifier cv).2) n2 v2 =
        some (viewItem o identifier cv)) := by
  have hns : (viewItem o identifier cv).ns = n2 := by simp [viewItem, h1]
  have hvn : (viewItem o identifier cv).viewName = v2 := by simp [viewItem, h2]
  refine ⟨hns, hvn, fun s hnone => ?_⟩
  have hspec := updateCache_cases o s identifier cv
  rw [hns, hvn] at hspec
  have heq := hspec.1 hnone
  rw [heq]
  refine ⟨rfl, ?_⟩
  show vsGet (vsPut s (viewItem o identifier cv)) n2 v2 =
    some (viewItem o identifier cv)
  rw [vsGet_vsPut]
  rw [if_pos ⟨hns, hvn⟩]

theorem C10_payload_overrides_key_witness :
    (viewItem ⟨"views", "cfg"⟩ "id" ⟨some "other", some "w", 5, "x"⟩).ns =
      "other" ∧
    vsGet ((updateCache ⟨"views", "cfg"⟩ [] "id"
        ⟨some "other", some "w", 5, "x"⟩).2) "other" "w" =
      some (viewItem ⟨"views", "cfg"⟩ "id" ⟨some "other", some "w", 5, "x"⟩) :=
  ⟨(C10_payload_overrides_key ⟨"views", "cfg"⟩ "id"
      ⟨some "other", some "w", 5, "x"⟩ "other" "w" rfl rfl).1,
   ((C10_payload_overrides_key ⟨"views", "cfg"⟩ "id"
      ⟨some "other", some "w", 5, "x"⟩ "other" "w" rfl rfl).2.2 [] rfl).2⟩

/-! ### C8: the registry key is a delimited string -/

theorem append_sep_inj : ∀ (l1 l2 r1 r2 : List Char), Char.ofNat 124 ∉ l1 →
    Char.ofNat 124 ∉ l2 →
    l1 ++ Char.ofNat 124 :: r1 = l2 ++ Char.ofNat 124 :: r2 →
    l1 = l2 ∧ r1 = r2 := by
  intro l1
  induction l1 with
  | nil =>
    intro l2 r1 r2 h1 h2 h
    cases l2 with
    | nil => simpa using h
    | cons d l2 =>
      simp only [List.nil_append, List.cons_append, List.cons.injEq] at h
      exact absurd (List.mem_cons.mpr (Or.inl h.1)) h2
  | cons c l1 ih =>
    intro l2 r1 r2 h1 h2 h
    cases l2 with
    | nil =>
      simp only [List.cons_append, List.nil_append, List.cons.injEq] at h
      exact absurd (List.mem_cons.mpr (Or.inl h.1.symm)) h1
    | cons d l2 =>
      simp only [List.cons_append, List.cons.injEq] at h
      obtain ⟨hcd, hrest⟩ := h
      have h1b : Char.ofNat 124 ∉ l1 := fun hm => h1 (List.mem_cons.mpr (Or.inr hm))
      have h2b : Char.ofNat 124 ∉ l2 := fun hm => h2 (List.mem_cons.mpr (Or.inr hm))
      obtain ⟨ha, hb⟩ := ih l2 r1 r2 h1b h2b hrest
      exact ⟨by rw [hcd, ha], hb⟩

/-- C8 (amended): the registry keys streams by the delimited string
`stackSet ++ "|" ++ stackName`; when the stack-set components are free of
the separator character, distinct identity pairs are bound to distinct
namespaces.  (Without that proviso the claim fails — see the
counterexample.) -/
theorem C8_name_injective_sepfree (s1 n1 s2 n2 : String) (st : StacksState)
    (h1 : Char.ofNat 124 ∉ s1.data) (h2 : Char.ofNat 124 ∉ s2.data)
    (hne : (s1, n1) ≠ (s2, n2)) :
    (createStack st s1 n1).1 ≠ (createStack st s2 n2).1 := by
  intro heq
  have heq2 : name s1 n1 = name s2 n2 := heq
  have hd : s1.data ++ Char.ofNat 124 :: n1.data =
      s2.data ++ Char.ofNat 124 :: n2.data := by
    have h3 := congrArg String.data heq2
    simpa [name, String.data_append] using h3
  obtain ⟨hs, hn⟩ := append_sep_inj s1.data s2.data n1.data n2.data h1 h2 hd
  exact hne (by rw [Prod.mk.injEq]; exact ⟨String.ext hs, String.ext hn⟩)

theorem C8_name_injective_sepfree_witness :
    (createStack ⟨[]⟩ "a" "b").1 ≠ (createStack ⟨[]⟩ "c" "d").1 :=
  C8_name_injective_sepfree "a" "b" "c" "d" ⟨[]⟩ (by decide) (by decide)
    (by decide)

/-- C8 counterexample: the two distinct identity pairs ("a|b", "c") and
("a", "b|c") are bound to the same namespace "a|b|c": after creating a
stack for the first pair, looking the second pair up in the registry
returns that very stack. -/
theorem C8_name_collision :
    ((("a|b" : String), ("c" : String)) ≠ (("a" : String), ("b|c" : String))) ∧
    name "a|b" "c" = name "a" "b|c" ∧
    getStack (createStack ⟨[]⟩ "a|b" "c").2 "a" "b|c" = some "a|b|c" := by
  refine ⟨by decide, by decide, by decide⟩

/-! ### C4: slice -/

/-- C4 (amended): `slice` returns the ascending ordered sequence of all
stored events of the namespace with `id ≥ startId`; the optional `endId`
argument is accepted but ignored (no upper restriction is applied).  On a
stream containing ids 0–5, `slice(startId = 2)` returns the events with
ids [2, 3, 4, 5] in ascending order. -/
theorem C4_slice_spec (o : DDBStackOptions) (s : Store) (start : Int)
    (endId : Option Int) :
    slice o s start endId = slice o s start none ∧
    (slice o s start endId).Pairwise (fun a b => a.id ≤ b.id) ∧
    (∀ r, r ∈ slice o s start endId ↔ (r ∈ s ∧ r.ns = o.ns ∧ start ≤ r.id)) ∧
    ((slice ⟨"events", "n"⟩
        [⟨"n", 0, "e0"⟩, ⟨"n", 1, "e1"⟩, ⟨"n", 2, "e2"⟩, ⟨"n", 3, "e3"⟩,
         ⟨"n", 4, "e4"⟩, ⟨"n", 5, "e5"⟩] 2 none).map (fun r => r.id) =
      [2, 3, 4, 5]) := by
  refine ⟨rfl, List.sorted_insertionSort _ _, fun r => ?_, by decide⟩
  unfold slice
  rw [List.mem_insertionSort, List.mem_filter]
  simp [Bool.and_eq_true, beq_iff_eq, decide_eq_true_eq]

/-- C4 counterexample: on a stream with ids 0–5, `slice(2, endId = 4)`
returns the events with ids [2, 3, 4, 5] — the ids 4 and 5 violate the
claimed `id < endId` restriction, which the source never applies. -/
theorem C4_slice_counterexample :
    ((slice ⟨"events", "n"⟩
        [⟨"n", 0, "e0"⟩, ⟨"n", 1, "e1"⟩, ⟨"n", 2, "e2"⟩, ⟨"n", 3, "e3"⟩,
         ⟨"n", 4, "e4"⟩, ⟨"n", 5, "e5"⟩] 2 (some 4)).map (fun r => r.id) =
      [2, 3, 4, 5]) ∧
    ((slice ⟨"events", "n"⟩
        [⟨"n", 0, "e0"⟩, ⟨"n", 1, "e1"⟩, ⟨"n", 2, "e2"⟩, ⟨"n", 3, "e3"⟩,
         ⟨"n", 4, "e4"⟩, ⟨"n", 5, "e5"⟩] 2 (some 4)).map (fun r => r.id) ≠
      [2, 3]) := by
  exact ⟨by decide, by decide⟩

end DDB
